import Mathlib

/-!
Verification of `icmp-scan` (src/icmp.go), a concurrent ICMP reachability
scanner.  The development shallowly embeds the repository's functions:

* `incrementIP`, `expandCIDR` (with its enumeration loop `expandLoop`) and
  `readIPs` are translated directly from the Go source.
* Library collaborators from Go's standard library (`net.IP.Mask`,
  `net.IPNet.Contains`, `net.ParseCIDR`, `sort.Slice`, `net.IP.String`) are
  modelled by their documented semantics; `net.ParseCIDR` is kept abstract
  (a parameter of `readIPs`), since the claims never depend on the textual
  parser itself.
* The post-collection phase of `main` (emptiness check, sort, CSV rows) is
  embedded as the pure function `runMain`; the semaphore-bounded dispatch
  loop of `main` is embedded as the transition system `SchedStep`.

A Go `net.IP` is a big-endian list of bytes; we model it as `List Nat`
with every element `< 256` (`ValidBytes`), and machine-byte overflow is
explicit `% 256`.
-/

namespace IcmpScan

/-- A byte list is valid when every byte fits in a machine byte. -/
def ValidBytes (bs : List Nat) : Prop := ∀ b ∈ bs, b < 256

instance (bs : List Nat) : Decidable (ValidBytes bs) :=
  List.decidableBAll _ bs

/-- Little-endian numeric value of a byte list (helper for `bytesToNat`). -/
def leVal : List Nat → Nat
  | [] => 0
  | b :: r => b + 256 * leVal r

/-- Numeric value of a big-endian byte list, i.e. a `net.IP` read as a number. -/
def bytesToNat (bs : List Nat) : Nat := leVal bs.reverse

/-- Little-endian byte list of length `L` holding the number `n % 256^L`. -/
def natToLE : Nat → Nat → List Nat
  | 0, _ => []
  | L+1, n => n % 256 :: natToLE L (n / 256)

/-- Big-endian byte list of length `L` holding the number `n % 256^L`. -/
def natToBytes (L n : Nat) : List Nat := (natToLE L n).reverse

/-- Body of `incrementIP` from src/icmp.go, acting on the REVERSED byte list
(least significant byte first): the Go loop walks `j` from `len(ip)-1` down
to `0`, does the wrapping byte increment `ip[j]++`, and stops as soon as the
incremented byte is positive (no carry). -/
def incRev : List Nat → List Nat
  | [] => []
  | b :: r => if (b + 1) % 256 > 0 then (b + 1) % 256 :: r else (b + 1) % 256 :: incRev r

/-- Lean translation of `incrementIP` from src/icmp.go: big-endian byte-wise
increment with carry, expressed as `incRev` on the reversed list. -/
def incrementIP (ip : List Nat) : List Nat := (incRev ip.reverse).reverse

theorem leVal_lt (l : List Nat) (h : ∀ b ∈ l, b < 256) : leVal l < 256 ^ l.length := by
  induction l with
  | nil => simp [leVal]
  | cons b r ih =>
    have hb : b < 256 := h b (List.mem_cons_self b r)
    have hr : leVal r < 256 ^ r.length := ih (fun x hx => h x (List.mem_cons_of_mem b hx))
    simp only [leVal, List.length_cons, pow_succ]
    have h2 : 256 * leVal r ≤ 256 * (256 ^ r.length - 1) := by
      apply Nat.mul_le_mul_left
      omega
    have h3 : 0 < 256 ^ r.length := Nat.pos_pow_of_pos _ (by norm_num)
    calc b + 256 * leVal r ≤ 255 + 256 * (256 ^ r.length - 1) := by omega
    _ < 256 ^ r.length * 256 := by
        rw [Nat.mul_sub, Nat.mul_comm 256 (256 ^ r.length)]
        omega

theorem incRev_length (l : List Nat) : (incRev l).length = l.length := by
  induction l with
  | nil => rfl
  | cons b r ih =>
    simp only [incRev]
    split <;> simp [ih]

theorem incRev_valid (l : List Nat) (hv : ∀ b ∈ l, b < 256) : ∀ b ∈ incRev l, b < 256 := by
  induction l with
  | nil => simp [incRev]
  | cons b r ih =>
    have hr : ∀ x ∈ r, x < 256 := fun x hx => hv x (List.mem_cons_of_mem b hx)
    simp only [incRev]
    split <;> intro x hx <;> rcases List.mem_cons.mp hx with h | h
    · subst h; exact Nat.mod_lt _ (by norm_num)
    · exact hr x h
    · subst h; exact Nat.mod_lt _ (by norm_num)
    · exact ih hr x h

theorem leVal_incRev (l : List Nat) (h : ∀ b ∈ l, b < 256) :
    leVal (incRev l) = (leVal l + 1) % 256 ^ l.length := by
  induction l with
  | nil => simp [incRev, leVal]
  | cons b r ih =>
    have hb : b < 256 := h b (List.mem_cons_self b r)
    have hr : ∀ x ∈ r, x < 256 := fun x hx => h x (List.mem_cons_of_mem b hx)
    have hrv : leVal r < 256 ^ r.length := leVal_lt r hr
    by_cases hb255 : b = 255
    · subst hb255
      simp only [incRev, leVal, List.length_cons]
      norm_num
      rw [ih hr]
      have : (255 + 256 * leVal r + 1) = 256 * (leVal r + 1) := by ring
      rw [this, pow_succ, Nat.mul_comm (256 ^ r.length) 256, Nat.mul_mod_mul_left]
    · have hlt : b + 1 < 256 := by omega
      simp only [incRev, leVal, List.length_cons]
      rw [Nat.mod_eq_of_lt hlt]
      have hpos : b + 1 > 0 := by omega
      simp only [if_pos hpos, leVal]
      have hbig : b + 1 + 256 * leVal r < 256 ^ (r.length + 1) := by
        rw [pow_succ, Nat.mul_comm]
        have h3 : 0 < 256 ^ r.length := Nat.pos_pow_of_pos _ (by norm_num)
        have h2 : 256 * leVal r ≤ 256 * (256 ^ r.length - 1) := by
          apply Nat.mul_le_mul_left; omega
        rw [Nat.mul_sub] at h2
        omega
      have harr : b + 256 * leVal r + 1 = b + 1 + 256 * leVal r := by ring
      rw [harr, Nat.mod_eq_of_lt hbig]

theorem natToLE_length (L n : Nat) : (natToLE L n).length = L := by
  induction L generalizing n with
  | zero => rfl
  | succ L ih => simp [natToLE, ih]

theorem natToLE_valid (L n : Nat) : ∀ b ∈ natToLE L n, b < 256 := by
  induction L generalizing n with
  | zero => simp [natToLE]
  | succ L ih =>
    intro b hb
    rcases List.mem_cons.mp hb with h | h
    · subst h; exact Nat.mod_lt _ (by norm_num)
    · exact ih (n / 256) b h

theorem leVal_natToLE (L n : Nat) : leVal (natToLE L n) = n % 256 ^ L := by
  induction L generalizing n with
  | zero => simp [natToLE, leVal, Nat.mod_one]
  | succ L ih =>
    simp only [natToLE, leVal, ih]
    rw [pow_succ, Nat.mul_comm (256 ^ L) 256, Nat.mod_mul]

theorem natToLE_leVal (l : List Nat) (h : ∀ b ∈ l, b < 256) :
    natToLE l.length (leVal l) = l := by
  induction l with
  | nil => rfl
  | cons b r ih =>
    have hb : b < 256 := h b (List.mem_cons_self b r)
    have hr : ∀ x ∈ r, x < 256 := fun x hx => h x (List.mem_cons_of_mem b hx)
    simp only [List.length_cons, natToLE, leVal]
    congr 1
    · rw [Nat.add_mul_mod_self_left, Nat.mod_eq_of_lt hb]
    · rw [Nat.add_mul_div_left _ _ (by norm_num : (0:Nat) < 256),
        Nat.div_eq_of_lt hb, Nat.zero_add]
      exact ih hr

theorem bytesToNat_lt (bs : List Nat) (h : ValidBytes bs) :
    bytesToNat bs < 256 ^ bs.length := by
  have := leVal_lt bs.reverse (fun b hb => h b (List.mem_reverse.mp hb))
  simpa [bytesToNat] using this

theorem natToBytes_length (L n : Nat) : (natToBytes L n).length = L := by
  simp [natToBytes, natToLE_length]

theorem natToBytes_valid (L n : Nat) : ValidBytes (natToBytes L n) := by
  intro b hb
  exact natToLE_valid L n b (List.mem_reverse.mp hb)

theorem bytesToNat_natToBytes (L n : Nat) :
    bytesToNat (natToBytes L n) = n % 256 ^ L := by
  simp [bytesToNat, natToBytes, leVal_natToLE]

theorem natToBytes_bytesToNat (bs : List Nat) (h : ValidBytes bs) :
    natToBytes bs.length (bytesToNat bs) = bs := by
  have hrev : ∀ b ∈ bs.reverse, b < 256 := fun b hb => h b (List.mem_reverse.mp hb)
  have := natToLE_leVal bs.reverse hrev
  simp only [List.length_reverse] at this
  simp [natToBytes, bytesToNat, this]

theorem incrementIP_length (bs : List Nat) : (incrementIP bs).length = bs.length := by
  simp [incrementIP, incRev_length]

theorem incrementIP_valid (bs : List Nat) (h : ValidBytes bs) :
    ValidBytes (incrementIP bs) := by
  intro b hb
  have hrev : ∀ x ∈ bs.reverse, x < 256 := fun x hx => h x (List.mem_reverse.mp hx)
  exact incRev_valid bs.reverse hrev b (List.mem_reverse.mp hb)

theorem bytesToNat_incrementIP (bs : List Nat) (h : ValidBytes bs) :
    bytesToNat (incrementIP bs) = (bytesToNat bs + 1) % 256 ^ bs.length := by
  have hrev : ∀ x ∈ bs.reverse, x < 256 := fun x hx => h x (List.mem_reverse.mp hx)
  have := leVal_incRev bs.reverse hrev
  simp only [List.length_reverse] at this
  simp [incrementIP, bytesToNat, this]

theorem pow256 (L : Nat) : 256 ^ L = 2 ^ (8 * L) := by
  rw [pow_mul]
  norm_num

/-- Model of the library collaborator `ip.Mask(ipnet.Mask)` with the CIDR mask
of `p` leading one-bits over `8 * ip.length` bits: keep the top `p` bits and
clear the low `8*L - p` host bits of the address value. -/
def ipMask (ip : List Nat) (p : Nat) : List Nat :=
  natToBytes ip.length
    (2 ^ (8 * ip.length - p) * (bytesToNat ip / 2 ^ (8 * ip.length - p)))

/-- Model of the library collaborator `ipnet.Contains(x)`: the lengths agree
and `x` has the same top `p` bits (the same quotient by the host-bit power)
as the network address `nn`. -/
def ipnetContains (nn : List Nat) (p : Nat) (x : List Nat) : Bool :=
  x.length == nn.length &&
    bytesToNat x / 2 ^ (8 * nn.length - p) == bytesToNat nn / 2 ^ (8 * nn.length - p)

/-- Fueled translation of the `for` loop of `expandCIDR` in src/icmp.go:
`for ip := ip.Mask(ipnet.Mask); ipnet.Contains(ip); incrementIP(ip) { ips =
append(ips, ip...) }`.  The Go loop has no fuel; the fuel is a modelling
artifact and `expandFuel` below is proven sufficient whenever the Go loop
terminates (prefix length ≥ 1). -/
def expandLoop (nn : List Nat) (p : Nat) : Nat → List Nat → List (List Nat)
  | 0, _ => []
  | fuel+1, ip =>
    if ipnetContains nn p ip then ip :: expandLoop nn p fuel (incrementIP ip) else []

/-- Fuel used by the model: one more than the number of distinct addresses. -/
def expandFuel (L : Nat) : Nat := 2 ^ (8 * L) + 1

/-- Enumeration phase of `expandCIDR`: the address list collected by the loop,
starting from the masked base address. -/
def enumCIDR (ip : List Nat) (p : Nat) : List (List Nat) :=
  expandLoop (ipMask ip p) p (expandFuel ip.length) (ipMask ip p)

/-- Lean translation of `expandCIDR` from src/icmp.go after a successful
`net.ParseCIDR` returning base address bytes `ip` and prefix length `p`:
enumerate the block, then `if len(ips) > 2 { return ips[1 : len(ips)-1] }`.
The source stores `ip.String()` for each visited address; we keep the byte
form and render strings at the `readIPs` call site. -/
def expandCIDR (ip : List Nat) (p : Nat) : List (List Nat) :=
  if (enumCIDR ip p).length > 2 then ((enumCIDR ip p).drop 1).dropLast
  else enumCIDR ip p

/-- Numeric value of the network (masked) address of the block. -/
def netVal (ip : List Nat) (p : Nat) : Nat :=
  2 ^ (8 * ip.length - p) * (bytesToNat ip / 2 ^ (8 * ip.length - p))

/-- The `k`-th address visited by the enumeration loop, as bytes. -/
def blockAddr (ip : List Nat) (p k : Nat) : List Nat :=
  natToBytes ip.length ((netVal ip p + k) % 2 ^ (8 * ip.length))

theorem netVal_le (ip : List Nat) (p : Nat) : netVal ip p ≤ bytesToNat ip := by
  rw [netVal, Nat.mul_comm]
  exact Nat.div_mul_le_self _ _

theorem netVal_lt (ip : List Nat) (p : Nat) (hv : ValidBytes ip) :
    netVal ip p < 2 ^ (8 * ip.length) := by
  have h1 := netVal_le ip p
  have h2 := bytesToNat_lt ip hv
  rw [pow256] at h2
  omega

theorem netVal_add_size_le (ip : List Nat) (p : Nat) (hv : ValidBytes ip) :
    netVal ip p + 2 ^ (8 * ip.length - p) ≤ 2 ^ (8 * ip.length) := by
  set sz := 2 ^ (8 * ip.length - p) with hszdef
  set W := 2 ^ (8 * ip.length) with hWdef
  have hsz : 0 < sz := Nat.pos_pow_of_pos _ (by norm_num)
  have hdvd : sz ∣ W := pow_dvd_pow 2 (Nat.sub_le _ _)
  have hmul : sz * (W / sz) = W := Nat.mul_div_cancel' hdvd
  have hlt : netVal ip p < W := netVal_lt ip p hv
  rw [netVal, ← hszdef, ← hWdef] at *
  set q := bytesToNat ip / sz with hqdef
  have hq : q < W / sz := by
    by_contra hcon
    push_neg at hcon
    have : sz * (W / sz) ≤ sz * q := Nat.mul_le_mul_left sz hcon
    omega
  have : sz * (q + 1) ≤ sz * (W / sz) := Nat.mul_le_mul_left sz hq
  rw [Nat.mul_add, Nat.mul_one] at this
  omega

theorem bytesToNat_blockAddr (ip : List Nat) (p k : Nat) :
    bytesToNat (blockAddr ip p k) = (netVal ip p + k) % 2 ^ (8 * ip.length) := by
  rw [blockAddr, bytesToNat_natToBytes, pow256]
  exact Nat.mod_mod_of_dvd _ dvd_rfl

theorem blockAddr_length (ip : List Nat) (p k : Nat) :
    (blockAddr ip p k).length = ip.length := natToBytes_length _ _

theorem blockAddr_valid (ip : List Nat) (p k : Nat) :
    ValidBytes (blockAddr ip p k) := natToBytes_valid _ _

theorem blockAddr_zero (ip : List Nat) (p : Nat) (hv : ValidBytes ip) :
    blockAddr ip p 0 = ipMask ip p := by
  rw [blockAddr, ipMask, Nat.add_zero, Nat.mod_eq_of_lt (netVal_lt ip p hv)]
  rfl

theorem incrementIP_blockAddr (ip : List Nat) (p k : Nat) :
    incrementIP (blockAddr ip p k) = blockAddr ip p (k + 1) := by
  have hval := blockAddr_valid ip p k
  have hlen := blockAddr_length ip p k
  have hinc := bytesToNat_incrementIP (blockAddr ip p k) hval
  rw [bytesToNat_blockAddr, hlen, pow256, Nat.mod_add_mod] at hinc
  have hrt := natToBytes_bytesToNat (incrementIP (blockAddr ip p k))
    (incrementIP_valid _ hval)
  rw [incrementIP_length, hlen, hinc] at hrt
  rw [← hrt, blockAddr]
  congr 2

theorem ipMask_length (ip : List Nat) (p : Nat) : (ipMask ip p).length = ip.length :=
  natToBytes_length _ _

theorem bytesToNat_ipMask (ip : List Nat) (p : Nat) (hv : ValidBytes ip) :
    bytesToNat (ipMask ip p) = netVal ip p := by
  have h := netVal_lt ip p hv
  rw [netVal] at h
  rw [ipMask, bytesToNat_natToBytes, pow256, Nat.mod_eq_of_lt h, netVal]

theorem ipnetContains_blockAddr_eq_true (ip : List Nat) (p k : Nat) (hv : ValidBytes ip) :
    ipnetContains (ipMask ip p) p (blockAddr ip p k) = true ↔
      (netVal ip p + k) % 2 ^ (8 * ip.length) / 2 ^ (8 * ip.length - p)
        = netVal ip p / 2 ^ (8 * ip.length - p) := by
  simp [ipnetContains, ipMask_length, blockAddr_length, bytesToNat_blockAddr,
    bytesToNat_ipMask _ _ hv]

theorem ipnetContains_blockAddr_lt (ip : List Nat) (p k : Nat) (hv : ValidBytes ip)
    (hk : k < 2 ^ (8 * ip.length - p)) :
    ipnetContains (ipMask ip p) p (blockAddr ip p k) = true := by
  rw [ipnetContains_blockAddr_eq_true ip p k hv]
  have hle := netVal_add_size_le ip p hv
  have hsz : 0 < 2 ^ (8 * ip.length - p) := Nat.pos_pow_of_pos _ (by norm_num)
  have hlt : netVal ip p + k < 2 ^ (8 * ip.length) := by omega
  rw [Nat.mod_eq_of_lt hlt, netVal, Nat.mul_add_div hsz, Nat.div_eq_of_lt hk,
    Nat.mul_div_cancel_left _ hsz, Nat.add_zero]

theorem ipnetContains_blockAddr_top (ip : List Nat) (p : Nat) (hv : ValidBytes ip)
    (hp : p ≤ 8 * ip.length) (hp1 : 1 ≤ p) :
    ipnetContains (ipMask ip p) p (blockAddr ip p (2 ^ (8 * ip.length - p))) = false := by
  have hiff := ipnetContains_blockAddr_eq_true ip p (2 ^ (8 * ip.length - p)) hv
  set sz := 2 ^ (8 * ip.length - p) with hszdef
  set W := 2 ^ (8 * ip.length) with hWdef
  have hsz : 0 < sz := Nat.pos_pow_of_pos _ (by norm_num)
  have hWpos : 0 < W := Nat.pos_pow_of_pos _ (by norm_num)
  have hWsz : W = sz * 2 ^ p := by
    rw [hszdef, hWdef, ← pow_add]
    congr 1
    omega
  have h2p : 2 ≤ 2 ^ p := by
    calc 2 = 2 ^ 1 := by norm_num
    _ ≤ 2 ^ p := Nat.pow_le_pow_right (by norm_num) hp1
  have hle := netVal_add_size_le ip p hv
  rw [← hszdef, ← hWdef] at hle
  have hq : netVal ip p = sz * (bytesToNat ip / sz) := by rw [netVal]
  set q := bytesToNat ip / sz with hqdef
  cases Nat.lt_or_ge (netVal ip p + sz) W with
  | inl hlt =>
    have hne : ipnetContains (ipMask ip p) p (blockAddr ip p sz) ≠ true := by
      intro hcon
      rw [hiff, Nat.mod_eq_of_lt hlt, hq] at hcon
      have h1 : sz * q + sz = sz * (q + 1) := by ring
      rw [h1, Nat.mul_div_cancel_left _ hsz, Nat.mul_div_cancel_left _ hsz] at hcon
      omega
    simpa using hne
  | inr hge =>
    have heq : netVal ip p + sz = W := by omega
    have hne : ipnetContains (ipMask ip p) p (blockAddr ip p sz) ≠ true := by
      intro hcon
      rw [hiff, heq, Nat.mod_self, Nat.zero_div, hq, Nat.mul_div_cancel_left _ hsz] at hcon
      have h1 : sz * q + sz = sz * (q + 1) := by ring
      rw [hq, h1, hWsz] at heq
      have hq1 : q + 1 = 2 ^ p := Nat.eq_of_mul_eq_mul_left hsz heq
      omega
    simpa using hne

theorem ipnetContains_blockAddr_p0 (ip : List Nat) (k : Nat) (hv : ValidBytes ip) :
    ipnetContains (ipMask ip 0) 0 (blockAddr ip 0 k) = true := by
  rw [ipnetContains_blockAddr_eq_true ip 0 k hv]
  have hWpos : 0 < 2 ^ (8 * ip.length) := Nat.pos_pow_of_pos _ (by norm_num)
  have h0 : 8 * ip.length - 0 = 8 * ip.length := by omega
  rw [h0, Nat.div_eq_of_lt (Nat.mod_lt _ hWpos), Nat.div_eq_of_lt (netVal_lt ip 0 hv)]

theorem expandLoop_take (ip : List Nat) (p : Nat) :
    ∀ (j k fuel : Nat), j ≤ fuel →
      (∀ m, m < j → ipnetContains (ipMask ip p) p (blockAddr ip p (k + m)) = true) →
      (expandLoop (ipMask ip p) p fuel (blockAddr ip p k)).take j
        = (List.range j).map (fun m => blockAddr ip p (k + m)) := by
  intro j
  induction j with
  | zero => intro k fuel _ _; simp
  | succ j ih =>
    intro k fuel hfuel hcont
    obtain ⟨f, rfl⟩ : ∃ f, fuel = f + 1 := ⟨fuel - 1, by omega⟩
    have h0 := hcont 0 (Nat.succ_pos j)
    rw [Nat.add_zero] at h0
    rw [expandLoop, h0, if_pos rfl, incrementIP_blockAddr, List.take_succ_cons]
    have hrec := ih (k + 1) f (by omega) (fun m hm => by
      have := hcont (m + 1) (by omega)
      rwa [show k + (m + 1) = k + 1 + m by omega] at this)
    rw [hrec, List.range_succ_eq_map, List.map_cons, Nat.add_zero, List.map_map]
    congr 1
    apply List.map_congr_left
    intro m _
    simp only [Function.comp_apply]
    congr 1
    omega

theorem expandLoop_exact (ip : List Nat) (p : Nat) :
    ∀ (j k fuel : Nat), j < fuel →
      (∀ m, m < j → ipnetContains (ipMask ip p) p (blockAddr ip p (k + m)) = true) →
      ipnetContains (ipMask ip p) p (blockAddr ip p (k + j)) = false →
      expandLoop (ipMask ip p) p fuel (blockAddr ip p k)
        = (List.range j).map (fun m => blockAddr ip p (k + m)) := by
  intro j
  induction j with
  | zero =>
    intro k fuel hfuel _ hlast
    obtain ⟨f, rfl⟩ : ∃ f, fuel = f + 1 := ⟨fuel - 1, by omega⟩
    rw [Nat.add_zero] at hlast
    rw [expandLoop, hlast, if_neg (by simp)]
    simp
  | succ j ih =>
    intro k fuel hfuel hcont hlast
    obtain ⟨f, rfl⟩ : ∃ f, fuel = f + 1 := ⟨fuel - 1, by omega⟩
    have h0 := hcont 0 (Nat.succ_pos j)
    rw [Nat.add_zero] at h0
    rw [expandLoop, h0, if_pos rfl, incrementIP_blockAddr]
    have hrec := ih (k + 1) f (by omega)
      (fun m hm => by
        have := hcont (m + 1) (by omega)
        rwa [show k + (m + 1) = k + 1 + m by omega] at this)
      (by rwa [show k + 1 + j = k + (j + 1) by omega])
    rw [hrec, List.range_succ_eq_map, List.map_cons, Nat.add_zero, List.map_map]
    congr 1
    apply List.map_congr_left
    intro m _
    simp only [Function.comp_apply]
    congr 1
    omega

theorem blockAddr_eq_of_lt (ip : List Nat) (p k : Nat) (hv : ValidBytes ip)
    (hk : k < 2 ^ (8 * ip.length - p)) :
    blockAddr ip p k = natToBytes ip.length (netVal ip p + k) := by
  have hle := netVal_add_size_le ip p hv
  rw [blockAddr, Nat.mod_eq_of_lt (by omega)]

theorem enumCIDR_of_pos (ip : List Nat) (p : Nat) (hv : ValidBytes ip)
    (hp : p ≤ 8 * ip.length) (hp1 : 1 ≤ p) :
    enumCIDR ip p = (List.range (2 ^ (8 * ip.length - p))).map (fun k => blockAddr ip p k) := by
  have hfuel : 2 ^ (8 * ip.length - p) < expandFuel ip.length := by
    rw [expandFuel]
    have := Nat.pow_le_pow_right (by norm_num : 0 < 2) (Nat.sub_le (8 * ip.length) p)
    omega
  have h := expandLoop_exact ip p (2 ^ (8 * ip.length - p)) 0 (expandFuel ip.length) hfuel
    (fun m hm => by rw [Nat.zero_add]; exact ipnetContains_blockAddr_lt ip p m hv hm)
    (by rw [Nat.zero_add]; exact ipnetContains_blockAddr_top ip p hv hp hp1)
  rw [blockAddr_zero ip p hv] at h
  rw [enumCIDR, h]
  apply List.map_congr_left
  intro m _
  rw [Nat.zero_add]

theorem enumCIDR_take (ip : List Nat) (p : Nat) (hv : ValidBytes ip) :
    (enumCIDR ip p).take (2 ^ (8 * ip.length - p))
      = (List.range (2 ^ (8 * ip.length - p))).map (fun k => blockAddr ip p k) := by
  have hfuel : 2 ^ (8 * ip.length - p) ≤ expandFuel ip.length := by
    rw [expandFuel]
    have := Nat.pow_le_pow_right (by norm_num : 0 < 2) (Nat.sub_le (8 * ip.length) p)
    omega
  have h := expandLoop_take ip p (2 ^ (8 * ip.length - p)) 0 (expandFuel ip.length) hfuel
    (fun m hm => by rw [Nat.zero_add]; exact ipnetContains_blockAddr_lt ip p m hv hm)
  rw [blockAddr_zero ip p hv] at h
  rw [enumCIDR, h]
  apply List.map_congr_left
  intro m _
  rw [Nat.zero_add]

/-- C2: for every valid CIDR block (any prefix length `p ≤ 8L`, including `/0`),
`expandCIDR` first masks the base address with the prefix to get the network
address `netVal` and then enumerates the block's addresses in increasing
numeric order starting there (`netVal + 0, netVal + 1, ...`); the per-step
big-endian byte-wise increment-with-carry `incrementIP` is exactly the numeric
successor modulo `2^(8L)` on valid byte lists. -/
theorem claim_C2 :
    (∀ bs : List Nat, ValidBytes bs →
      bytesToNat (incrementIP bs) = (bytesToNat bs + 1) % 2 ^ (8 * bs.length)) ∧
    (∀ (ip : List Nat) (p : Nat), ValidBytes ip → p ≤ 8 * ip.length →
      (enumCIDR ip p).take (2 ^ (8 * ip.length - p))
        = (List.range (2 ^ (8 * ip.length - p))).map
            (fun k => natToBytes ip.length (netVal ip p + k))) ∧
    (∀ (ip : List Nat) (p : Nat), ValidBytes ip → p ≤ 8 * ip.length → 1 ≤ p →
      enumCIDR ip p
        = (List.range (2 ^ (8 * ip.length - p))).map
            (fun k => natToBytes ip.length (netVal ip p + k))) := by
  refine ⟨fun bs hv => ?_, fun ip p hv hp => ?_, fun ip p hv hp hp1 => ?_⟩
  · rw [bytesToNat_incrementIP bs hv, pow256]
  · rw [enumCIDR_take ip p hv]
    apply List.map_congr_left
    intro k hk
    exact blockAddr_eq_of_lt ip p k hv (List.mem_range.mp hk)
  · rw [enumCIDR_of_pos ip p hv hp hp1]
    apply List.map_congr_left
    intro k hk
    exact blockAddr_eq_of_lt ip p k hv (List.mem_range.mp hk)

/-- Witness for C2, evaluated on `192.168.1.0/30` and on an increment that
carries across two bytes. -/
theorem claim_C2_witness :
    (enumCIDR [192, 168, 1, 0] 30).take (2 ^ (8 * [192, 168, 1, 0].length - 30))
      = [[192, 168, 1, 0], [192, 168, 1, 1], [192, 168, 1, 2], [192, 168, 1, 3]] ∧
    bytesToNat (incrementIP [10, 0, 255, 255])
      = (bytesToNat [10, 0, 255, 255] + 1) % 2 ^ (8 * [10, 0, 255, 255].length) := by
  refine ⟨?_, claim_C2.1 [10, 0, 255, 255] (by decide)⟩
  rw [(claim_C2.2.1) [192, 168, 1, 0] 30 (by decide) (by decide)]
  decide

/-- C1: for prefix lengths `1 ≤ p ≤ 8L`, if the block holds more than two
addresses then `expandCIDR` returns the enumerated increasing numeric range
with exactly its first (network) and last (broadcast) element removed; if the
block holds at most two addresses the enumerated list is returned unmodified. -/
theorem claim_C1 (ip : List Nat) (p : Nat) (hv : ValidBytes ip)
    (hp1 : 1 ≤ p) (hp : p ≤ 8 * ip.length) :
    (2 < 2 ^ (8 * ip.length - p) →
      expandCIDR ip p
        = (((List.range (2 ^ (8 * ip.length - p))).map
            (fun k => natToBytes ip.length (netVal ip p + k))).drop 1).dropLast) ∧
    (2 ^ (8 * ip.length - p) ≤ 2 →
      expandCIDR ip p
        = (List.range (2 ^ (8 * ip.length - p))).map
            (fun k => natToBytes ip.length (netVal ip p + k))) := by
  have henum := claim_C2.2.2 ip p hv hp hp1
  have hlen : (enumCIDR ip p).length = 2 ^ (8 * ip.length - p) := by
    rw [henum, List.length_map, List.length_range]
  constructor
  · intro h2
    rw [expandCIDR, if_pos (by omega), henum]
  · intro h2
    rw [expandCIDR, if_neg (by omega), henum]

/-- Witness for C1: `192.168.1.0/30` drops network and broadcast, and a `/31`
block is returned unmodified. -/
theorem claim_C1_witness :
    expandCIDR [192, 168, 1, 0] 30 = [[192, 168, 1, 1], [192, 168, 1, 2]] ∧
    expandCIDR [10, 0, 0, 4] 31 = [[10, 0, 0, 4], [10, 0, 0, 5]] := by
  constructor
  · rw [(claim_C1 [192, 168, 1, 0] 30 (by decide) (by decide) (by decide)).1 (by decide)]
    decide
  · rw [(claim_C1 [10, 0, 0, 4] 31 (by decide) (by decide) (by decide)).2 (by decide)]
    decide

/-- The enumeration loop of `expandCIDR` terminates exactly when some iterate
of `incrementIP`, started at the masked network address, leaves the block (the
loop guard `ipnet.Contains` becomes false). -/
def enumTerminates (ip : List Nat) (p : Nat) : Prop :=
  ∃ k, ipnetContains (ipMask ip p) p (incrementIP^[k] (ipMask ip p)) = false

theorem iterate_incrementIP (ip : List Nat) (p : Nat) (hv : ValidBytes ip) (k : Nat) :
    incrementIP^[k] (ipMask ip p) = blockAddr ip p k := by
  induction k with
  | zero => rw [Function.iterate_zero_apply, blockAddr_zero ip p hv]
  | succ k ih => rw [Function.iterate_succ_apply', ih, incrementIP_blockAddr]

/-- C9: the enumeration loop of `expandCIDR` terminates on a valid CIDR block
if and only if the prefix length is at least 1; for prefix 0 every iterate of
the byte-wise increment (which wraps around the whole address space) stays
inside the block, so the loop guard never fails. -/
theorem claim_C9 (ip : List Nat) (p : Nat) (hv : ValidBytes ip)
    (hp : p ≤ 8 * ip.length) :
    enumTerminates ip p ↔ 1 ≤ p := by
  constructor
  · intro hterm
    by_contra hp0
    have hp0' : p = 0 := by omega
    subst hp0'
    obtain ⟨k, hk⟩ := hterm
    rw [iterate_incrementIP ip 0 hv k, ipnetContains_blockAddr_p0 ip k hv] at hk
    simp at hk
  · intro hp1
    refine ⟨2 ^ (8 * ip.length - p), ?_⟩
    rw [iterate_incrementIP ip p hv, ipnetContains_blockAddr_top ip p hv hp hp1]

/-- Witness for C9: the `/30` loop escapes its block, while the `/0` loop
never does. -/
theorem claim_C9_witness :
    enumTerminates [192, 168, 1, 0] 30 ∧ ¬ enumTerminates [0, 0, 0, 0] 0 := by
  constructor
  · exact (claim_C9 [192, 168, 1, 0] 30 (by decide) (by decide)).mpr (by decide)
  · intro hterm
    have h := (claim_C9 [0, 0, 0, 0] 0 (by decide) (by decide)).mp hterm
    omega

/-- Model of the library collaborator `strings.TrimSpace`: drop leading and
trailing whitespace runes.  Go strings are modelled as rune lists
(`List Char`), since Lean's builtin `String.trim` does not reduce in the
kernel. -/
def trimSpace (s : List Char) : List Char :=
  ((s.dropWhile Char.isWhitespace).reverse.dropWhile Char.isWhitespace).reverse

/-- Model of the library collaborator `strings.Contains(line, "/")` for a
single-rune needle. -/
def containsRune (s : List Char) (c : Char) : Bool :=
  s.any (· == c)

/-- Model of the library collaborator `net.IP.String`: render the byte list as
dot-separated decimal byte values; the exact text never matters to the claims. -/
def ipString (bs : List Nat) : List Char :=
  (List.intersperse ['.'] (bs.map (fun b => Nat.toDigits 10 b))).flatten

/-- Lean translation of `readIPs` from src/icmp.go, over the file's scanned
lines (as rune lists): trim each line; a line containing "/" is parsed as a
CIDR (`parse` models the library `net.ParseCIDR`, returning base address
bytes and prefix length) and expanded, and a parse failure skips the line,
recording the reported non-fatal parse error; a line without "/" is appended
verbatim with no validation.  Returns (targets, reported parse errors). -/
def readIPs (parse : List Char → Option (List Nat × Nat)) :
    List (List Char) → List (List Char) × List (List Char)
  | [] => ([], [])
  | l :: rest =>
    if containsRune (trimSpace l) '/' then
      match parse (trimSpace l) with
      | none => ((readIPs parse rest).1, trimSpace l :: (readIPs parse rest).2)
      | some (ip, p) =>
        ((expandCIDR ip p).map ipString ++ (readIPs parse rest).1,
          (readIPs parse rest).2)
    else (trimSpace l :: (readIPs parse rest).1, (readIPs parse rest).2)

theorem readIPs_append (parse : List Char → Option (List Nat × Nat))
    (xs ys : List (List Char)) :
    readIPs parse (xs ++ ys)
      = ((readIPs parse xs).1 ++ (readIPs parse ys).1,
         (readIPs parse xs).2 ++ (readIPs parse ys).2) := by
  induction xs with
  | nil => simp [readIPs]
  | cons l rest ih =>
    by_cases hc : containsRune (trimSpace l) '/'
    · cases hparse : parse (trimSpace l) with
      | none => simp [readIPs, hc, hparse, ih]
      | some v =>
        obtain ⟨ip, p⟩ := v
        simp [readIPs, hc, hparse, ih]
    · simp [readIPs, hc, ih]

/-- C3: a line whose trimmed text contains the CIDR separator but fails to
parse is skipped (it contributes no targets), its parse error is reported in
order, and processing continues: the surrounding lines' targets and errors are
exactly those of the input without the bad line, so the run is not aborted. -/
theorem claim_C3 (parse : List Char → Option (List Nat × Nat))
    (pre post : List (List Char)) (bad : List Char)
    (hslash : containsRune (trimSpace bad) '/' = true)
    (hfail : parse (trimSpace bad) = none) :
    readIPs parse (pre ++ bad :: post)
      = ((readIPs parse pre).1 ++ (readIPs parse post).1,
         (readIPs parse pre).2 ++ trimSpace bad :: (readIPs parse post).2) := by
  rw [readIPs_append,
    show readIPs parse (bad :: post)
        = ((readIPs parse post).1, trimSpace bad :: (readIPs parse post).2) from by
      simp [readIPs, hslash, hfail]]

/-- Witness for C3: the malformed CIDR line `10.0.0.0/abc` is skipped with a
reported parse error while the literal-address lines around it survive. -/
theorem claim_C3_witness :
    containsRune (trimSpace " 10.0.0.0/abc ".toList) '/' = true ∧
    readIPs (fun _ => none)
        ["1.2.3.4".toList, " 10.0.0.0/abc ".toList, "5.6.7.8".toList]
      = (["1.2.3.4".toList, "5.6.7.8".toList], ["10.0.0.0/abc".toList]) := by
  refine ⟨by decide, ?_⟩
  have h := claim_C3 (fun _ => none) ["1.2.3.4".toList] ["5.6.7.8".toList]
    " 10.0.0.0/abc ".toList (by decide) rfl
  rw [show ["1.2.3.4".toList] ++ " 10.0.0.0/abc ".toList :: ["5.6.7.8".toList]
      = ["1.2.3.4".toList, " 10.0.0.0/abc ".toList, "5.6.7.8".toList] from rfl] at h
  rw [h]
  decide

/-- C10: any line whose trimmed text has no CIDR separator — including a
blank or whitespace-only line, whose trimmed text is the empty string — is
appended verbatim as a probe target, so it is counted in the run's total. -/
theorem claim_C10 (parse : List Char → Option (List Nat × Nat))
    (pre post : List (List Char)) (l : List Char)
    (h : containsRune (trimSpace l) '/' = false) :
    (readIPs parse (pre ++ l :: post)).1
      = (readIPs parse pre).1 ++ trimSpace l :: (readIPs parse post).1 ∧
    (readIPs parse (pre ++ l :: post)).1.length
      = (readIPs parse pre).1.length + (readIPs parse post).1.length + 1 := by
  have hstep : readIPs parse (l :: post)
      = (trimSpace l :: (readIPs parse post).1, (readIPs parse post).2) := by
    simp [readIPs, h]
  rw [readIPs_append, hstep]
  constructor
  · rfl
  · simp only [List.length_append, List.length_cons]
    omega

/-- Witness for C10: a whitespace-only line becomes the empty-string probe
target. -/
theorem claim_C10_witness :
    (readIPs (fun _ => none) ["  ".toList]).1 = [[]] := by
  have h := (claim_C10 (fun _ => none) [] [] "  ".toList (by decide)).1
  rw [show ([] ++ "  ".toList :: ([] : List (List Char))) = ["  ".toList] from rfl] at h
  rw [h]
  decide

/-- One collected success, the `result` struct of src/icmp.go: target text,
formatted latency text, and the raw `time.Duration` (an integer nanosecond
count, modelled as `Nat`). -/
structure PingResult where
  ip : List Char
  latency : List Char
  duration : Nat
deriving DecidableEq

/-- Model of `sort.Slice(results, func(i, j int) bool { return
results[i].duration < results[j].duration })` from src/icmp.go: a permutation
of the input ordered by duration.  Go's sort is deterministic in the input
slice, and for the ties the comparator cannot distinguish it gives some
arrival-order-dependent arrangement (insertion sort, which preserves arrival
order, for short slices); `List.mergeSort` with the non-strict duration
comparator produces the same sorted output and the same tie behavior. -/
def sortResults (l : List PingResult) : List PingResult :=
  l.mergeSort (fun a b => a.duration ≤ b.duration)

/-- Per-run probe outcomes collected into the `results` slice of `main`:
`probe` models `ping`, with `none` a reported-and-dropped failure and
`some (latency, duration)` a success that is sent to `resultChan`. -/
def collectResults (probe : List Char → Option (List Char × Nat))
    (ips : List (List Char)) : List PingResult :=
  ips.filterMap (fun ip => (probe ip).map (fun r => PingResult.mk ip r.1 r.2))

/-- Observable terminal report of one run of `main` from src/icmp.go:
`readFail` is the fatal path taken when `readIPs` returns an error (prints
and returns before any probing), `empty` is the `len(resultChan) == 0` path
(prints 没有发现有效的IP and returns WITHOUT creating the output file), and
`csv rows` is the CSV file written otherwise, header row included. -/
inductive RunReport where
  | readFail : RunReport
  | empty : RunReport
  | csv (rows : List (List (List Char))) : RunReport
deriving DecidableEq

/-- Header row written by `main`: `{"IP地址", "网络延迟"}`. -/
def csvHeader : List (List Char) := ["IP地址".toList, "网络延迟".toList]

/-- Model of `main`'s terminal behavior (src/icmp.go lines 38–42 and 78–116):
a failed read aborts with its own message; otherwise, after all probes have
completed, an empty collection is reported as the explicit empty-result
message and no file is produced, and a non-empty collection is sorted by
duration and written as header plus one `{ip, latency}` row per success.
Collection order of the real channel is completion order; the model takes the
collected list in submission order, which no claim of this development
depends on. -/
def runMain (readResult : Option (List (List Char)))
    (probe : List Char → Option (List Char × Nat)) : RunReport :=
  match readResult with
  | none => RunReport.readFail
  | some ips =>
    if (collectResults probe ips).length == 0 then RunReport.empty
    else RunReport.csv
      (csvHeader :: (sortResults (collectResults probe ips)).map (fun r => [r.ip, r.latency]))

theorem collectResults_eq_nil (probe : List Char → Option (List Char × Nat))
    (ips : List (List Char)) (h : ∀ ip ∈ ips, probe ip = none) :
    collectResults probe ips = [] := by
  rw [collectResults, List.filterMap_eq_nil_iff]
  intro ip hip
  rw [h ip hip]
  rfl

theorem runMain_of_no_success (ips : List (List Char))
    (probe : List Char → Option (List Char × Nat))
    (h : ∀ ip ∈ ips, probe ip = none) :
    runMain (some ips) probe = RunReport.empty := by
  rw [runMain, collectResults_eq_nil probe ips h]
  rfl

/-- C4: when zero successes are collected, `main` reports the explicit
empty-result condition and produces no output file — in particular not a
header-only CSV — and this path is total (no crash). -/
theorem claim_C4 (ips : List (List Char))
    (probe : List Char → Option (List Char × Nat))
    (hfail : ∀ ip ∈ ips, probe ip = none) :
    runMain (some ips) probe = RunReport.empty ∧
    ∀ rows, runMain (some ips) probe ≠ RunReport.csv rows := by
  have h := runMain_of_no_success ips probe hfail
  refine ⟨h, fun rows hcon => ?_⟩
  rw [h] at hcon
  exact RunReport.noConfusion hcon

/-- Witness for C4: one target whose probe times out yields the empty-result
report and no CSV. -/
theorem claim_C4_witness :
    runMain (some ["10.0.0.1".toList]) (fun _ => none) = RunReport.empty ∧
    runMain (some ["10.0.0.1".toList]) (fun _ => none) ≠ RunReport.csv [csvHeader] := by
  have h := claim_C4 ["10.0.0.1".toList] (fun _ => none) (fun _ _ => rfl)
  exact ⟨h.1, h.2 [csvHeader]⟩

/-- C5 counterexample: a run whose readable input produced no valid targets
and a run whose single target's probe failed emit the SAME terminal report
(the shared empty-result message), so the two conditions are not observably
distinguished, contrary to the claim. -/
theorem claim_C5_counterexample :
    runMain (some []) (fun _ => none)
      = runMain (some ["10.0.0.1".toList]) (fun _ => none) ∧
    runMain (some []) (fun _ => none) = RunReport.empty := by
  exact ⟨rfl, rfl⟩

/-- C5 as amended: `main` distinguishes only the fatal read failure from the
empty outcome; a readable input with no targets and a target list whose every
probe failed both collapse to the identical empty-result report. -/
theorem claim_C5_amended :
    (∀ probe, runMain none probe = RunReport.readFail) ∧
    (∀ ips probe, (∀ ip ∈ ips, probe ip = none) →
      runMain (some ips) probe = RunReport.empty) ∧
    (∀ probe, runMain (some []) probe = RunReport.empty) ∧
    RunReport.readFail ≠ RunReport.empty := by
  refine ⟨fun probe => rfl, fun ips probe h => runMain_of_no_success ips probe h,
    fun probe => rfl, fun hcon => RunReport.noConfusion hcon⟩

/-- Witness for the amended C5 at concrete inputs. -/
theorem claim_C5_amended_witness :
    runMain (some ["10.0.0.9".toList]) (fun _ => none) = RunReport.empty ∧
    runMain none (fun _ => none) = RunReport.readFail :=
  ⟨claim_C5_amended.2.1 ["10.0.0.9".toList] (fun _ => none) (fun _ _ => rfl),
    claim_C5_amended.1 (fun _ => none)⟩

theorem sortResults_pairwise (l : List PingResult) :
    (sortResults l).Pairwise (fun a b => a.duration ≤ b.duration) := by
  have hs := @List.sorted_mergeSort PingResult
    (fun a b : PingResult => a.duration ≤ b.duration)
    (fun a b c h1 h2 => by
      simp only [decide_eq_true_eq] at *
      omega)
    (fun a b => by
      simp only [Bool.or_eq_true, decide_eq_true_eq]
      omega)
    l
  exact hs.imp (fun h => by simpa using h)

/-- C6: the aggregation's output is sorted ascending by duration, and
re-sorting an already-sorted result list leaves it unchanged. -/
theorem claim_C6 (l : List PingResult) (_hne : l ≠ []) :
    (sortResults l).Pairwise (fun a b => a.duration ≤ b.duration) ∧
    sortResults (sortResults l) = sortResults l := by
  refine ⟨sortResults_pairwise l, ?_⟩
  apply List.mergeSort_of_sorted
  exact (sortResults_pairwise l).imp (fun h => by simpa using h)

/-- Witness for C6 on a concrete two-element out-of-order collection. -/
theorem claim_C6_witness :
    (sortResults
        [PingResult.mk "8.8.8.8".toList "2 ms".toList 2000000,
         PingResult.mk "1.1.1.1".toList "1 ms".toList 1000000]).Pairwise
      (fun a b => a.duration ≤ b.duration) ∧
    sortResults (sortResults
        [PingResult.mk "8.8.8.8".toList "2 ms".toList 2000000,
         PingResult.mk "1.1.1.1".toList "1 ms".toList 1000000])
      = sortResults
          [PingResult.mk "8.8.8.8".toList "2 ms".toList 2000000,
           PingResult.mk "1.1.1.1".toList "1 ms".toList 1000000] :=
  claim_C6 _ (by simp)

/-- C7 counterexample: two collections holding the SAME probe outcomes (one a
permutation of the other, as two completion orders of the same run), with two
elements tied in duration, are aggregated into DIFFERENT orderings: the sort
compares only durations, so ties keep their arrival order rather than a
canonical (duration, address) order, and arrival order is not deterministic
across runs. -/
theorem claim_C7_counterexample :
    (PingResult.mk "1.1.1.1".toList "1 ms".toList 1000000).duration
      = (PingResult.mk "2.2.2.2".toList "1 ms".toList 1000000).duration ∧
    List.Perm
      [PingResult.mk "1.1.1.1".toList "1 ms".toList 1000000,
       PingResult.mk "2.2.2.2".toList "1 ms".toList 1000000]
      [PingResult.mk "2.2.2.2".toList "1 ms".toList 1000000,
       PingResult.mk "1.1.1.1".toList "1 ms".toList 1000000] ∧
    sortResults
        [PingResult.mk "1.1.1.1".toList "1 ms".toList 1000000,
         PingResult.mk "2.2.2.2".toList "1 ms".toList 1000000]
      ≠ sortResults
          [PingResult.mk "2.2.2.2".toList "1 ms".toList 1000000,
           PingResult.mk "1.1.1.1".toList "1 ms".toList 1000000] := by
  refine ⟨rfl, List.Perm.swap _ _ _, ?_⟩
  have h1 : sortResults
      [PingResult.mk "1.1.1.1".toList "1 ms".toList 1000000,
       PingResult.mk "2.2.2.2".toList "1 ms".toList 1000000]
      = [PingResult.mk "1.1.1.1".toList "1 ms".toList 1000000,
         PingResult.mk "2.2.2.2".toList "1 ms".toList 1000000] := by
    apply List.mergeSort_of_sorted
    simp [List.pairwise_cons]
  have h2 : sortResults
      [PingResult.mk "2.2.2.2".toList "1 ms".toList 1000000,
       PingResult.mk "1.1.1.1".toList "1 ms".toList 1000000]
      = [PingResult.mk "2.2.2.2".toList "1 ms".toList 1000000,
         PingResult.mk "1.1.1.1".toList "1 ms".toList 1000000] := by
    apply List.mergeSort_of_sorted
    simp [List.pairwise_cons]
  rw [h1, h2]
  decide

/-- C7 as amended: tied elements retain the order in which they were
collected (the sort is tie-preserving on the collected sequence); since the
collected sequence follows completion order, the relative order of ties is
only as reproducible as completion order, and no (duration, address)
tiebreak is applied. -/
theorem claim_C7_amended (a b : PingResult) (h : a.duration = b.duration) :
    sortResults [a, b] = [a, b] ∧ sortResults [b, a] = [b, a] := by
  constructor <;>
    · apply List.mergeSort_of_sorted
      simp [List.pairwise_cons]
      omega

/-- Witness for the amended C7 on a concrete tied pair. -/
theorem claim_C7_amended_witness :
    sortResults
        [PingResult.mk "3.3.3.3".toList "1 ms".toList 1000000,
         PingResult.mk "4.4.4.4".toList "1 ms".toList 1000000]
      = [PingResult.mk "3.3.3.3".toList "1 ms".toList 1000000,
         PingResult.mk "4.4.4.4".toList "1 ms".toList 1000000] ∧
    sortResults
        [PingResult.mk "4.4.4.4".toList "1 ms".toList 1000000,
         PingResult.mk "3.3.3.3".toList "1 ms".toList 1000000]
      = [PingResult.mk "4.4.4.4".toList "1 ms".toList 1000000,
         PingResult.mk "3.3.3.3".toList "1 ms".toList 1000000] :=
  claim_C7_amended _ _ rfl

/-- State of `main`'s dispatch loop: `remaining` targets not yet admitted and
`inFlight` goroutines currently holding a semaphore slot.  A slot is acquired
before the goroutine starts and released (deferred `<-sem`) only after `ping`
has returned and closed its transport, so every probe holding an open ICMP
transport holds a slot. -/
structure SchedState where
  remaining : Nat
  inFlight : Nat
deriving DecidableEq

/-- Transition relation of the dispatch loop of `main` in src/icmp.go with
concurrency limit `N` (`maxThreads`): `dispatch` models `sem <- struct{}{}`
followed by `go func(ip)` — the send on the buffered channel of capacity `N`
can proceed only while fewer than `N` slots are taken, otherwise the loop
blocks until a slot frees; `finish` models a goroutine's deferred `<-sem`. -/
inductive SchedStep (N : Nat) : SchedState → SchedState → Prop
  | dispatch (s : SchedState) : s.inFlight < N → 0 < s.remaining →
      SchedStep N s ⟨s.remaining - 1, s.inFlight + 1⟩
  | finish (s : SchedState) : 0 < s.inFlight →
      SchedStep N s ⟨s.remaining, s.inFlight - 1⟩

/-- Reachability from the run's start state: every target pending, no slot
taken. -/
def SchedReachable (N total : Nat) (s : SchedState) : Prop :=
  Relation.ReflTransGen (SchedStep N) ⟨total, 0⟩ s

/-- C8: for every concurrency limit `N ≥ 1` and every number of targets, every
state the dispatch loop can reach has at most `N` probes in flight (holding a
semaphore slot, hence an open transport); admission is only possible below the
limit, so a task that cannot be admitted waits. -/
theorem claim_C8 (N total : Nat) (_hN : 1 ≤ N) (s : SchedState)
    (h : SchedReachable N total s) : s.inFlight ≤ N := by
  induction h with
  | refl => exact Nat.zero_le N
  | tail hr hstep ih =>
    cases hstep with
    | dispatch hlt hrem => exact Nat.succ_le_of_lt hlt
    | finish hpos => exact le_trans (Nat.sub_le _ _) ih

/-- Witness for C8: with limit 1 and two targets, the state after one
admission is reachable and within the bound. -/
theorem claim_C8_witness :
    SchedReachable 1 2 ⟨1, 1⟩ ∧ (SchedState.mk 1 1).inFlight ≤ 1 := by
  have hreach : SchedReachable 1 2 ⟨1, 1⟩ :=
    Relation.ReflTransGen.single (SchedStep.dispatch ⟨2, 0⟩ (by decide) (by decide))
  exact ⟨hreach, claim_C8 1 2 (by decide) ⟨1, 1⟩ hreach⟩

end IcmpScan
